import Mathlib

/-!
# Verification of the Vigenère cipher engine (src/vigenere.h, src/vigenere.cpp)

The repository is a single C++ class `Vigenere` holding one mutable field
`key : std::string` and exposing `encrypt`, `decrypt`, `isEncrypted` and
`setKey`.

Embedding conventions:

* A character (C++ `char` promoted to `int` in all the arithmetic involved)
  is modelled as an `Int` holding its code; `'A' = 65`, `'Z' = 90`,
  `'a' = 97`, `'z' = 122`, `' ' = 32`.  A `std::string` is a `List Int`.
* C++ `%` on `int` truncates towards zero, which is `Int.tmod`.
* `i % keyLength` with `keyLength = 0` is a division-by-zero fault in C++;
  a computation that reaches it is modelled as returning `none`, so
  `encrypt`/`decrypt`/`isEncrypted` are `Option`-valued.
* The loop `for (i = 0; ...) { ... encrypted += c; }` building a string by
  appending is modelled as a structural recursion over the message that
  conses the character produced at each position.
-/

namespace Vig

/-- Model of `std::isalpha` in the default C locale (vigenere.cpp includes
`<cctype>`): true exactly on the ASCII letters, codes 65–90 (A–Z) and
97–122 (a–z). -/
def isalpha (c : Int) : Bool :=
  (65 ≤ c && c ≤ 90) || (97 ≤ c && c ≤ 122)

/-- `Vigenere::shiftForward` (vigenere.cpp lines 23–25):
`return 'A' + (ch - 'A' + n) % 26;`, with C++ truncating `%`. -/
def shiftForward (ch n : Int) : Int :=
  65 + (ch - 65 + n).tmod 26

/-- `Vigenere::shiftBackward` (vigenere.cpp lines 33–35):
`return 'A' + (ch - 'A' - n + 26) % 26;`, with C++ truncating `%`. -/
def shiftBackward (ch n : Int) : Int :=
  65 + (ch - 65 - n + 26).tmod 26

/-- The loop body of `Vigenere::encrypt` (vigenere.cpp lines 46–53), started
at message position `i`.  For an alphabetic character the code computes
`int shift = key[i % keyLength] - 'A'` — the key is indexed by the raw
message position `i`, and when `keyLength = 0` the `%` is a modulo by zero,
modelled as `none`.  A non-alphabetic character is appended unchanged and
the recursion continues at position `i + 1`. -/
def encryptFrom (key : List Int) (i : Nat) : List Int → Option (List Int)
  | [] => some []
  | c :: rest =>
    if isalpha c then
      if key.length = 0 then none
      else
        (encryptFrom key (i + 1) rest).map
          (fun out => shiftForward c (key.getD (i % key.length) 0 - 65) :: out)
    else
      (encryptFrom key (i + 1) rest).map (fun out => c :: out)

/-- `Vigenere::encrypt` (vigenere.cpp lines 42–55): run the loop from
position 0 on an empty accumulator. -/
def encrypt (key msg : List Int) : Option (List Int) :=
  encryptFrom key 0 msg

/-- The loop body of `Vigenere::decrypt` (vigenere.cpp lines 66–73), the
mirror of `encryptFrom` using `shiftBackward`, with the same
`key[i % keyLength]` indexing. -/
def decryptFrom (key : List Int) (i : Nat) : List Int → Option (List Int)
  | [] => some []
  | c :: rest =>
    if isalpha c then
      if key.length = 0 then none
      else
        (decryptFrom key (i + 1) rest).map
          (fun out => shiftBackward c (key.getD (i % key.length) 0 - 65) :: out)
    else
      (decryptFrom key (i + 1) rest).map (fun out => c :: out)

/-- `Vigenere::decrypt` (vigenere.cpp lines 62–75). -/
def decrypt (key msg : List Int) : Option (List Int) :=
  decryptFrom key 0 msg

/-- `Vigenere::isEncrypted` (vigenere.cpp lines 83–85):
`return encryptedMsg == encrypt(decryptedMessage);` — re-derives the
ciphertext with the current key and compares for exact equality. -/
def isEncrypted (key encryptedMsg decryptedMessage : List Int) : Option Bool :=
  (encrypt key decryptedMessage).map (fun e => encryptedMsg == e)

/-- The engine state: the single private field `key` (vigenere.h line 68). -/
structure Vigenere where
  key : List Int
deriving DecidableEq

/-- The constructor `Vigenere::Vigenere(std::string key)` (vigenere.cpp
lines 8–10): stores the given key. -/
def Vigenere.construct (key : List Int) : Vigenere :=
  ⟨key⟩

/-- `Vigenere::setKey` (vigenere.cpp lines 91–93): replaces the stored key. -/
def Vigenere.setKey (v : Vigenere) (newKey : List Int) : Vigenere :=
  { v with key := newKey }

/-- Method form of `encrypt`: the C++ body reads `key` and writes only the
locals `encrypted`, `keyLength`, `shift`, never assigning a member, so the
state after the call is the state before it.  Returns
(result, state after the call). -/
def Vigenere.encrypt (v : Vigenere) (msg : List Int) :
    Option (List Int) × Vigenere :=
  (Vig.encrypt v.key msg, v)

/-- Method form of `decrypt`; as for `Vigenere.encrypt`, no member is
assigned by the body. -/
def Vigenere.decrypt (v : Vigenere) (msg : List Int) :
    Option (List Int) × Vigenere :=
  (Vig.decrypt v.key msg, v)

/-- Method form of `isEncrypted`; the body calls `encrypt` and compares,
assigning no member. -/
def Vigenere.isEncrypted (v : Vigenere) (encryptedMsg decryptedMessage : List Int) :
    Option Bool × Vigenere :=
  (Vig.isEncrypted v.key encryptedMsg decryptedMessage, v)

/-- The key-position cursor described by the specification: the number of
alphabetic characters strictly before position `i` of the message (the
running count `j` that §4.1 increments only on alphabetic characters).
This is spec vocabulary used to state claim C1 against the code; the code
itself has no such counter. -/
def alphaCountBefore (msg : List Int) (i : Nat) : Nat :=
  ((msg.take i).filter (fun c => isalpha c)).length

/-- Proof device: the pure value computed by `encryptFrom` when the key is
non-empty (`encryptFrom_eq_encGo` ties it to the embedding). -/
def encGo (key : List Int) (i : Nat) : List Int → List Int
  | [] => []
  | c :: rest =>
    (if isalpha c then shiftForward c (key.getD (i % key.length) 0 - 65) else c)
      :: encGo key (i + 1) rest

/-- Proof device: the pure value computed by `decryptFrom` when the key is
non-empty. -/
def decGo (key : List Int) (i : Nat) : List Int → List Int
  | [] => []
  | c :: rest =>
    (if isalpha c then shiftBackward c (key.getD (i % key.length) 0 - 65) else c)
      :: decGo key (i + 1) rest

theorem length_ne_zero_of_ne_nil {key : List Int} (hk : key ≠ []) :
    ¬ key.length = 0 := by
  cases key with
  | nil => exact absurd rfl hk
  | cons a l => simp

theorem encryptFrom_eq_encGo (key : List Int) (hk : key ≠ []) :
    ∀ (i : Nat) (msg : List Int), encryptFrom key i msg = some (encGo key i msg) := by
  intro i msg
  induction msg generalizing i with
  | nil => rfl
  | cons c rest ih =>
    cases hci : isalpha c with
    | false => simp [encryptFrom, encGo, hci, ih]
    | true => simp [encryptFrom, encGo, hci, length_ne_zero_of_ne_nil hk, ih]

theorem decryptFrom_eq_decGo (key : List Int) (hk : key ≠ []) :
    ∀ (i : Nat) (msg : List Int), decryptFrom key i msg = some (decGo key i msg) := by
  intro i msg
  induction msg generalizing i with
  | nil => rfl
  | cons c rest ih =>
    cases hci : isalpha c with
    | false => simp [decryptFrom, decGo, hci, ih]
    | true => simp [decryptFrom, decGo, hci, length_ne_zero_of_ne_nil hk, ih]

theorem encGo_length (key : List Int) :
    ∀ (i : Nat) (msg : List Int), (encGo key i msg).length = msg.length := by
  intro i msg
  induction msg generalizing i with
  | nil => rfl
  | cons c rest ih => simp [encGo, ih]

theorem decGo_length (key : List Int) :
    ∀ (i : Nat) (msg : List Int), (decGo key i msg).length = msg.length := by
  intro i msg
  induction msg generalizing i with
  | nil => rfl
  | cons c rest ih => simp [decGo, ih]

theorem encGo_getD (key : List Int) :
    ∀ (i j : Nat) (msg : List Int), j < msg.length →
      (encGo key i msg).getD j 0 =
        if isalpha (msg.getD j 0)
        then shiftForward (msg.getD j 0) (key.getD ((i + j) % key.length) 0 - 65)
        else msg.getD j 0 := by
  intro i j msg
  induction msg generalizing i j with
  | nil => intro h; simp at h
  | cons c rest ih =>
    intro h
    cases j with
    | zero => simp [encGo]
    | succ j =>
      have hj : j < rest.length := by simpa using h
      have hstep := ih (i + 1) j hj
      have harith : i + 1 + j = i + (j + 1) := by omega
      rw [harith] at hstep
      simpa [encGo] using hstep

theorem decGo_getD (key : List Int) :
    ∀ (i j : Nat) (msg : List Int), j < msg.length →
      (decGo key i msg).getD j 0 =
        if isalpha (msg.getD j 0)
        then shiftBackward (msg.getD j 0) (key.getD ((i + j) % key.length) 0 - 65)
        else msg.getD j 0 := by
  intro i j msg
  induction msg generalizing i j with
  | nil => intro h; simp at h
  | cons c rest ih =>
    intro h
    cases j with
    | zero => simp [decGo]
    | succ j =>
      have hj : j < rest.length := by simpa using h
      have hstep := ih (i + 1) j hj
      have harith : i + 1 + j = i + (j + 1) := by omega
      rw [harith] at hstep
      simpa [decGo] using hstep

theorem tmod26_eq {a : Int} (h : 0 ≤ a) : a.tmod 26 = a % 26 :=
  Int.tmod_eq_emod h (by norm_num)

theorem shiftForward_bounds {c n : Int} (hc1 : 65 ≤ c) (hc2 : c ≤ 90)
    (hn1 : 0 ≤ n) (hn2 : n < 26) :
    65 ≤ shiftForward c n ∧ shiftForward c n ≤ 90 := by
  unfold shiftForward
  rw [tmod26_eq (by omega)]
  omega

theorem isalpha_shiftForward {c n : Int} (hc1 : 65 ≤ c) (hc2 : c ≤ 90)
    (hn1 : 0 ≤ n) (hn2 : n < 26) :
    isalpha (shiftForward c n) = true := by
  obtain ⟨h1, h2⟩ := shiftForward_bounds hc1 hc2 hn1 hn2
  simp only [isalpha, Bool.or_eq_true, Bool.and_eq_true, decide_eq_true_eq]
  omega

theorem shiftBackward_shiftForward {c n : Int} (hc1 : 65 ≤ c) (hc2 : c ≤ 90)
    (hn1 : 0 ≤ n) (hn2 : n < 26) :
    shiftBackward (shiftForward c n) n = c := by
  unfold shiftForward shiftBackward
  rw [tmod26_eq (show (0 : Int) ≤ c - 65 + n by omega)]
  rw [tmod26_eq (show (0 : Int) ≤ 65 + (c - 65 + n) % 26 - 65 - n + 26 by omega)]
  omega

theorem shiftForward_id {c : Int} (hc1 : 65 ≤ c) (hc2 : c ≤ 90) :
    shiftForward c 0 = c := by
  unfold shiftForward
  rw [tmod26_eq (by omega)]
  omega

theorem isalpha_of_upper {c : Int} (hc1 : 65 ≤ c) (hc2 : c ≤ 90) :
    isalpha c = true := by
  simp only [isalpha, Bool.or_eq_true, Bool.and_eq_true, decide_eq_true_eq]
  omega

theorem keyChar_bounds {key : List Int} (hk : key ≠ [])
    (hkey : ∀ k ∈ key, 65 ≤ k ∧ k ≤ 90) (i : Nat) :
    0 ≤ key.getD (i % key.length) 0 - 65 ∧ key.getD (i % key.length) 0 - 65 < 26 := by
  have hlen : 0 < key.length := by
    cases key with
    | nil => exact absurd rfl hk
    | cons a l => simp
  have hidx : i % key.length < key.length := Nat.mod_lt _ hlen
  have hmem : key.getD (i % key.length) 0 ∈ key := by
    rw [List.getD_eq_getElem key 0 hidx]
    exact List.getElem_mem hidx
  obtain ⟨h1, h2⟩ := hkey _ hmem
  omega

theorem decGo_encGo {key : List Int} (hk : key ≠ [])
    (hkey : ∀ k ∈ key, 65 ≤ k ∧ k ≤ 90) :
    ∀ (i : Nat) (msg : List Int),
      (∀ c ∈ msg, isalpha c = true → 65 ≤ c ∧ c ≤ 90) →
      decGo key i (encGo key i msg) = msg := by
  intro i msg
  induction msg generalizing i with
  | nil => intro _; rfl
  | cons c rest ih =>
    intro hmsg
    have hrest : ∀ x ∈ rest, isalpha x = true → 65 ≤ x ∧ x ≤ 90 :=
      fun x hx => hmsg x (List.mem_cons_of_mem _ hx)
    cases hci : isalpha c with
    | false =>
      simp only [encGo, decGo, hci, if_false, Bool.false_eq_true]
      rw [ih (i + 1) hrest]
    | true =>
      obtain ⟨hn1, hn2⟩ := keyChar_bounds hk hkey i
      obtain ⟨hc1, hc2⟩ := hmsg c (List.mem_cons_self c rest) hci
      simp only [encGo, decGo, hci, if_true]
      rw [if_pos (isalpha_shiftForward hc1 hc2 hn1 hn2)]
      rw [shiftBackward_shiftForward hc1 hc2 hn1 hn2]
      rw [ih (i + 1) hrest]

theorem encGo_key_A :
    ∀ (i : Nat) (msg : List Int), (∀ c ∈ msg, 65 ≤ c ∧ c ≤ 90) →
      encGo [65] i msg = msg := by
  intro i msg
  induction msg generalizing i with
  | nil => intro _; rfl
  | cons c rest ih =>
    intro hmsg
    obtain ⟨hc1, hc2⟩ := hmsg c (List.mem_cons_self c rest)
    have hrest : ∀ x ∈ rest, 65 ≤ x ∧ x ≤ 90 :=
      fun x hx => hmsg x (List.mem_cons_of_mem _ hx)
    simp only [encGo, isalpha_of_upper hc1 hc2, if_true]
    rw [ih (i + 1) hrest]
    simp only [List.cons.injEq, and_true]
    simp only [List.length_cons, List.length_nil, Nat.zero_add, Nat.mod_one,
      List.getD_cons_zero, sub_self]
    exact shiftForward_id hc1 hc2

theorem encryptFrom_nil_key :
    ∀ (i : Nat) (msg : List Int),
      encryptFrom [] i msg = none ↔ msg.any isalpha = true := by
  intro i msg
  induction msg generalizing i with
  | nil => simp [encryptFrom]
  | cons c rest ih =>
    cases hci : isalpha c with
    | false => simp [encryptFrom, hci, ih (i + 1)]
    | true => simp [encryptFrom, hci]

theorem decryptFrom_nil_key :
    ∀ (i : Nat) (msg : List Int),
      decryptFrom [] i msg = none ↔ msg.any isalpha = true := by
  intro i msg
  induction msg generalizing i with
  | nil => simp [decryptFrom]
  | cons c rest ih =>
    cases hci : isalpha c with
    | false => simp [decryptFrom, hci, ih (i + 1)]
    | true => simp [decryptFrom, hci]

/-- Claim C1, as stated, is false: it asserts that the key index used for an
alphabetic character at position `i` is the count of alphabetic characters
before it (the spec's cursor `j`, which non-alphabetic characters do not
advance) mod the key length.  The code instead indexes the key by the raw
position `i` (vigenere.cpp line 48: `key[i % keyLength]`).  Concrete
counterexample: key "ABC", message "  A" (two spaces then 'A' at position
2): the code uses `key[2 % 3] = 'C'` (shift 2), producing 'C' = 67, while
the claimed cursor is 0, predicting `key[0] = 'A'` (shift 0), i.e. 'A' = 65. -/
theorem claim_C1_counterexample :
    ¬ (∀ (key msg : List Int) (i : Nat), key ≠ [] → i < msg.length →
        isalpha (msg.getD i 0) = true →
        (encrypt key msg).map (fun out => out.getD i 0)
          = some (shiftForward (msg.getD i 0)
              (key.getD (alphaCountBefore msg i % key.length) 0 - 65))) := by
  intro h
  exact absurd (h [65, 66, 67] [32, 32, 65] 2 (by decide) (by decide) (by decide))
    (by decide)

/-- Claim C1 (amended): for every non-empty key and every message, the key
index used to compute the shift for the alphabetic character at position `i`
of the message is `i mod keyLength` — the raw message position, which
advances on every character, non-alphabetic ones included — for both
`encrypt` (shift forward) and `decrypt` (shift backward). -/
theorem claim_C1 (key msg : List Int) (i : Nat) (hk : key ≠ [])
    (hi : i < msg.length) (ha : isalpha (msg.getD i 0) = true) :
    (encrypt key msg).map (fun out => out.getD i 0)
      = some (shiftForward (msg.getD i 0) (key.getD (i % key.length) 0 - 65)) ∧
    (decrypt key msg).map (fun out => out.getD i 0)
      = some (shiftBackward (msg.getD i 0) (key.getD (i % key.length) 0 - 65)) := by
  constructor
  · rw [encrypt, encryptFrom_eq_encGo key hk 0 msg, Option.map_some']
    rw [encGo_getD key 0 i msg hi]
    simp only [ha, if_true, Nat.zero_add]
  · rw [decrypt, decryptFrom_eq_decGo key hk 0 msg, Option.map_some']
    rw [decGo_getD key 0 i msg hi]
    simp only [ha, if_true, Nat.zero_add]

/-- Witness for `claim_C1`: key "K", message "H", position 0, for both
directions. -/
theorem claim_C1_witness :
    ((encrypt [75] [72]).map (fun out => out.getD 0 0)
      = some (shiftForward (([72] : List Int).getD 0 0)
          (([75] : List Int).getD (0 % ([75] : List Int).length) 0 - 65))) ∧
    ((decrypt [75] [72]).map (fun out => out.getD 0 0)
      = some (shiftBackward (([72] : List Int).getD 0 0)
          (([75] : List Int).getD (0 % ([75] : List Int).length) 0 - 65))) :=
  claim_C1 [75] [72] 0 (by decide) (by decide) (by decide)

/-- Claim C2: for every non-empty uppercase key and every message whose
alphabetic characters are all uppercase, decrypting the encryption of the
message with the same key yields the message back. -/
theorem claim_C2 (key msg : List Int) (hk : key ≠ [])
    (hkey : ∀ k ∈ key, 65 ≤ k ∧ k ≤ 90)
    (hmsg : ∀ c ∈ msg, isalpha c = true → 65 ≤ c ∧ c ≤ 90) :
    (encrypt key msg).bind (decrypt key) = some msg := by
  rw [encrypt, encryptFrom_eq_encGo key hk 0 msg]
  show decrypt key (encGo key 0 msg) = some msg
  rw [decrypt, decryptFrom_eq_decGo key hk 0]
  rw [decGo_encGo hk hkey 0 msg hmsg]

/-- Witness for `claim_C2`: key "KEY", message "HELLO, 1!". -/
theorem claim_C2_witness :
    (encrypt [75, 69, 89] [72, 69, 76, 76, 79, 44, 32, 49, 33]).bind
        (decrypt [75, 69, 89])
      = some [72, 69, 76, 76, 79, 44, 32, 49, 33] :=
  claim_C2 [75, 69, 89] [72, 69, 76, 76, 79, 44, 32, 49, 33]
    (by decide) (by decide) (by decide)

/-- Claim C3: with a non-empty key, `isEncrypted C M` returns true exactly
when `C` equals `encrypt M` under the current key, and it always returns a
boolean (never faults) for such keys. -/
theorem claim_C3 (key C M : List Int) (hk : key ≠ []) :
    (isEncrypted key C M = some true ↔ encrypt key M = some C) ∧
    ∃ b : Bool, isEncrypted key C M = some b := by
  have he : encrypt key M = some (encGo key 0 M) := encryptFrom_eq_encGo key hk 0 M
  constructor
  · rw [isEncrypted, he]
    simp only [Option.map_some', Option.some.injEq, beq_iff_eq]
    exact eq_comm
  · exact ⟨C == encGo key 0 M, by rw [isEncrypted, he, Option.map_some']⟩

/-- Witness for `claim_C3`: key "KEY", candidate "RIJVS", message "HELLO". -/
theorem claim_C3_witness :
    (isEncrypted [75, 69, 89] [82, 73, 74, 86, 83] [72, 69, 76, 76, 79] = some true ↔
      encrypt [75, 69, 89] [72, 69, 76, 76, 79] = some [82, 73, 74, 86, 83]) ∧
    ∃ b : Bool,
      isEncrypted [75, 69, 89] [82, 73, 74, 86, 83] [72, 69, 76, 76, 79] = some b :=
  claim_C3 [75, 69, 89] [82, 73, 74, 86, 83] [72, 69, 76, 76, 79] (by decide)

/-- Claim C4: with a non-empty key, every non-alphabetic character of the
message appears unchanged at the same position in the output of both
`encrypt` and `decrypt`. -/
theorem claim_C4 (key msg : List Int) (i : Nat) (hk : key ≠ [])
    (hi : i < msg.length) (ha : isalpha (msg.getD i 0) = false) :
    (encrypt key msg).map (fun out => out.getD i 0) = some (msg.getD i 0) ∧
    (decrypt key msg).map (fun out => out.getD i 0) = some (msg.getD i 0) := by
  constructor
  · rw [encrypt, encryptFrom_eq_encGo key hk 0 msg, Option.map_some']
    rw [encGo_getD key 0 i msg hi]
    simp only [ha, Bool.false_eq_true, if_false, Nat.zero_add]
  · rw [decrypt, decryptFrom_eq_decGo key hk 0 msg, Option.map_some']
    rw [decGo_getD key 0 i msg hi]
    simp only [ha, Bool.false_eq_true, if_false, Nat.zero_add]

/-- Witness for `claim_C4`: key "K", message "7" (a digit), position 0. -/
theorem claim_C4_witness :
    (encrypt [75] [55]).map (fun out => out.getD 0 0)
        = some (([55] : List Int).getD 0 0) ∧
    (decrypt [75] [55]).map (fun out => out.getD 0 0)
        = some (([55] : List Int).getD 0 0) :=
  claim_C4 [75] [55] 0 (by decide) (by decide) (by decide)

/-- Claim C5: with a non-empty key, `encrypt` and `decrypt` return a result
(no fault) of the same length as the message, for every message; in
particular both map the empty string to the empty string. -/
theorem claim_C5 (key msg : List Int) (hk : key ≠ []) :
    (∃ e, encrypt key msg = some e ∧ e.length = msg.length) ∧
    (∃ d, decrypt key msg = some d ∧ d.length = msg.length) ∧
    encrypt key [] = some [] ∧ decrypt key [] = some [] :=
  ⟨⟨encGo key 0 msg, encryptFrom_eq_encGo key hk 0 msg, encGo_length key 0 msg⟩,
    ⟨decGo key 0 msg, decryptFrom_eq_decGo key hk 0 msg, decGo_length key 0 msg⟩,
    rfl, rfl⟩

/-- Witness for `claim_C5`: key "KEY", message "HI 5". -/
theorem claim_C5_witness :
    (∃ e, encrypt [75, 69, 89] [72, 73, 32, 53] = some e ∧
        e.length = ([72, 73, 32, 53] : List Int).length) ∧
    (∃ d, decrypt [75, 69, 89] [72, 73, 32, 53] = some d ∧
        d.length = ([72, 73, 32, 53] : List Int).length) ∧
    encrypt [75, 69, 89] [] = some [] ∧ decrypt [75, 69, 89] [] = some [] :=
  claim_C5 [75, 69, 89] [72, 73, 32, 53] (by decide)

/-- Claim C6, as stated, is false: with an empty key the modulo-by-zero in
`key[i % keyLength]` is claimed to be reached for *every* message, but that
expression sits inside the `isalpha` branch (vigenere.cpp lines 47–48), so
a message with no alphabetic character — e.g. the empty message — never
executes it: `encrypt` with empty key returns the message unchanged
instead of faulting. -/
theorem claim_C6_counterexample :
    ¬ (∀ (msg C : List Int),
        encrypt [] msg = none ∧ decrypt [] msg = none ∧
        isEncrypted [] C msg = none) := by
  intro h
  exact absurd (h [] []).1 (by decide)

/-- Claim C6 (amended): with an empty stored key, `encrypt`, `decrypt` and
`isEncrypted` reach the modulo-by-zero fault if and only if the (plaintext)
message contains at least one alphabetic character; no guard prevents it. -/
theorem claim_C6 (msg C : List Int) :
    (encrypt [] msg = none ↔ msg.any isalpha = true) ∧
    (decrypt [] msg = none ↔ msg.any isalpha = true) ∧
    (isEncrypted [] C msg = none ↔ msg.any isalpha = true) := by
  refine ⟨encryptFrom_nil_key 0 msg, decryptFrom_nil_key 0 msg, ?_⟩
  rw [isEncrypted]
  simp only [encrypt, Option.map_eq_none']
  exact encryptFrom_nil_key 0 msg

/-- Claim C7: with a non-empty uppercase key, a lowercase message character
is classified as alphabetic and is shifted by the uppercase-relative
formula `'A' + ((ch - 'A' + shift) mod 26)` with
`shift = key[i mod keyLength] - 'A'`, not passed through. -/
theorem claim_C7 (key msg : List Int) (i : Nat) (hk : key ≠ [])
    (hkey : ∀ k ∈ key, 65 ≤ k ∧ k ≤ 90) (hi : i < msg.length)
    (hlo : 97 ≤ msg.getD i 0) (hhi : msg.getD i 0 ≤ 122) :
    isalpha (msg.getD i 0) = true ∧
    (encrypt key msg).map (fun out => out.getD i 0)
      = some (65 + (msg.getD i 0 - 65 + (key.getD (i % key.length) 0 - 65)) % 26) := by
  have ha : isalpha (msg.getD i 0) = true := by
    simp only [isalpha, Bool.or_eq_true, Bool.and_eq_true, decide_eq_true_eq]
    omega
  refine ⟨ha, ?_⟩
  rw [encrypt, encryptFrom_eq_encGo key hk 0 msg, Option.map_some']
  rw [encGo_getD key 0 i msg hi]
  simp only [ha, if_true, Nat.zero_add]
  obtain ⟨hn1, hn2⟩ := keyChar_bounds hk hkey i
  simp only [shiftForward]
  rw [tmod26_eq (by omega)]

/-- Witness for `claim_C7`: key "A", message "a" (lowercase), position 0. -/
theorem claim_C7_witness :
    isalpha (([97] : List Int).getD 0 0) = true ∧
    (encrypt [65] [97]).map (fun out => out.getD 0 0)
      = some (65 + (([97] : List Int).getD 0 0 - 65 +
          (([65] : List Int).getD (0 % ([65] : List Int).length) 0 - 65)) % 26) :=
  claim_C7 [65] [97] 0 (by decide) (by decide) (by decide) (by decide) (by decide)

/-- Claim C8: with key "KEY" (codes 75,69,89), encrypting "HELLO"
(72,69,76,76,79) yields "RIJVS" (82,73,74,86,83), decrypting "RIJVS" yields
"HELLO", and `isEncrypted "RIJVS" "HELLO"` is true. -/
theorem claim_C8 :
    encrypt [75, 69, 89] [72, 69, 76, 76, 79] = some [82, 73, 74, 86, 83] ∧
    decrypt [75, 69, 89] [82, 73, 74, 86, 83] = some [72, 69, 76, 76, 79] ∧
    isEncrypted [75, 69, 89] [82, 73, 74, 86, 83] [72, 69, 76, 76, 79] = some true := by
  decide

/-- Claim C9: `setKey` replaces the stored key and all subsequent calls use
the new key; with key "A" (shift 0) `encrypt` is the identity on messages
of uppercase letters, in particular on "ABC". -/
theorem claim_C9 :
    (∀ (v : Vigenere) (newKey : List Int), (v.setKey newKey).key = newKey) ∧
    (∀ (v : Vigenere) (newKey msg : List Int),
      (v.setKey newKey).encrypt msg = (encrypt newKey msg, v.setKey newKey)) ∧
    (∀ msg : List Int, (∀ c ∈ msg, 65 ≤ c ∧ c ≤ 90) → encrypt [65] msg = some msg) ∧
    encrypt [65] [65, 66, 67] = some [65, 66, 67] := by
  refine ⟨fun v k => rfl, fun v k msg => rfl, ?_, by decide⟩
  intro msg hmsg
  rw [encrypt, encryptFrom_eq_encGo [65] (by decide) 0 msg]
  rw [encGo_key_A 0 msg hmsg]

/-- Witness for `claim_C9`: encrypting "HI" with key "A" returns "HI". -/
theorem claim_C9_witness : encrypt [65] [72, 73] = some [72, 73] :=
  claim_C9.2.2.1 [72, 73] (by decide)

/-- Claim C10: `encrypt`, `decrypt` and `isEncrypted` leave the engine state
(the stored key) unchanged; `setKey` and construction are the operations
that set the key field. -/
theorem claim_C10 (v : Vigenere) (msg C M k : List Int) :
    (v.encrypt msg).2 = v ∧ (v.decrypt msg).2 = v ∧ (v.isEncrypted C M).2 = v ∧
    (v.setKey k).key = k ∧ (Vigenere.construct k).key = k :=
  ⟨rfl, rfl, rfl, rfl, rfl⟩

end Vig
